import Mathlib

/-
  Verification of the chordrectness chord-analysis engine.

  Shallow embedding notes:
  * Real-valued audio quantities are modelled over `ℚ` (exact arithmetic; the
    Python floats are read as exact decimal literals, e.g. `0.4 = 2/5`,
    `1e-8 = 1/100000000`).
  * `np.corrcoef(x, y)[0, 1]` (Pearson correlation, external numpy; its value
    is irrational in general) is modelled as an oracle parameter
    `corr : List ℚ → List ℚ → Option ℚ`, where `none` models numpy's NaN
    (which numpy produces exactly when one of the two vectors is constant).
    Theorems that depend on the numeric behaviour of the correlation state the
    needed facts about the oracle as hypotheses (e.g. Pearson values lie in
    [-1, 1]; self-correlation of a non-constant vector is 1).
  * `np.std` appears in two places.  In the segmenter it is only *compared*
    (`diff > mean + std`), which is rewritten into the exactly equivalent
    square-free form `diff > mean ∧ (diff - mean)^2 > variance`.  In the
    confidence score its value flows into the output, so there the square
    root is an oracle parameter `sq : ℚ → ℚ`.
  * A chroma matrix (numpy shape 12 × frames) is stored as the list of its
    frame columns: `List (List ℚ)` with every inner list of length 12; the
    frame count `len(chroma[0])` is the length of the outer list.
-/

set_option maxRecDepth 100000

namespace Chordrect

/-- A 12-bin chroma vector (pitch classes C, C#, ..., B). -/
abbrev Chroma := List ℚ

/-- Oracle type for `np.corrcoef(x, y)[0, 1]`; `none` models NaN. -/
abbrev Corr := List ℚ → List ℚ → Option ℚ

/-- The "Unknown" sentinel string used throughout the source. -/
def unknownS : String := "Unknown"

/-- The empty string (Python's default for a missing dict key). -/
def emptyS : String := ""

/-- The "maj" suffix marker searched for by `detect_key`. -/
def majS : String := "maj"

/-- The "7" suffix marker searched for by `detect_key`. -/
def sevenS : String := "7"

/-- The "m" suffix marker searched for by `detect_key`. -/
def mS : String := "m"

/-- `np.max` over a vector (the empty case never occurs in the source paths we
model; it is given the junk value 0). -/
def listMax : List ℚ → ℚ
  | [] => 0
  | x :: xs => xs.foldl max x

/-- `np.dot` of two equal-length vectors. -/
def dotProd (a b : List ℚ) : ℚ :=
  ((a.zip b).map (fun p => p.1 * p.2)).sum

/-- `ChordTemplates.TEMPLATES` from
`src/services/chord-analyzer/models/audio/templates.py`, in dict insertion
order (12 major, 12 minor, 12 dominant 7th, 12 major 7th, 12 minor 7th, then
the six special chords). -/
def TEMPLATES : List (String × Chroma) := [
  ("C",      [1, 0, 0, 0, 1, 0, 0, 1, 0, 0, 0, 0]),
  ("C#",     [0, 1, 0, 0, 0, 1, 0, 0, 1, 0, 0, 0]),
  ("D",      [0, 0, 1, 0, 0, 0, 1, 0, 0, 1, 0, 0]),
  ("D#",     [0, 0, 0, 1, 0, 0, 0, 1, 0, 0, 1, 0]),
  ("E",      [0, 0, 0, 0, 1, 0, 0, 0, 1, 0, 0, 1]),
  ("F",      [1, 0, 0, 0, 0, 1, 0, 0, 0, 1, 0, 0]),
  ("F#",     [0, 1, 0, 0, 0, 0, 1, 0, 0, 0, 1, 0]),
  ("G",      [0, 0, 1, 0, 0, 0, 0, 1, 0, 0, 0, 1]),
  ("G#",     [0, 0, 0, 1, 0, 0, 0, 0, 1, 0, 0, 0]),
  ("A",      [1, 0, 0, 0, 1, 0, 0, 0, 0, 1, 0, 0]),
  ("A#",     [0, 1, 0, 0, 0, 1, 0, 0, 0, 0, 1, 0]),
  ("B",      [0, 0, 1, 0, 0, 0, 1, 0, 0, 0, 0, 1]),
  ("Cm",     [1, 0, 0, 1, 0, 0, 0, 1, 0, 0, 0, 0]),
  ("C#m",    [0, 1, 0, 0, 1, 0, 0, 0, 1, 0, 0, 0]),
  ("Dm",     [0, 0, 1, 0, 0, 1, 0, 0, 0, 1, 0, 0]),
  ("D#m",    [0, 0, 0, 1, 0, 0, 1, 0, 0, 0, 1, 0]),
  ("Em",     [0, 0, 0, 0, 1, 0, 0, 1, 0, 0, 0, 1]),
  ("Fm",     [1, 0, 0, 0, 0, 1, 0, 0, 1, 0, 0, 0]),
  ("F#m",    [0, 1, 0, 0, 0, 0, 1, 0, 0, 1, 0, 0]),
  ("Gm",     [0, 0, 1, 0, 0, 0, 0, 1, 0, 0, 1, 0]),
  ("G#m",    [0, 0, 0, 1, 0, 0, 0, 0, 1, 0, 0, 1]),
  ("Am",     [1, 0, 0, 0, 1, 0, 0, 0, 0, 1, 0, 0]),
  ("A#m",    [0, 1, 0, 0, 0, 1, 0, 0, 0, 0, 1, 0]),
  ("Bm",     [0, 0, 1, 0, 0, 0, 1, 0, 0, 0, 0, 1]),
  ("C7",     [1, 0, 0, 0, 1, 0, 0, 1, 0, 0, 1, 0]),
  ("C#7",    [0, 1, 0, 0, 0, 1, 0, 0, 1, 0, 0, 1]),
  ("D7",     [0, 0, 1, 0, 0, 0, 1, 0, 0, 1, 0, 0]),
  ("D#7",    [0, 0, 0, 1, 0, 0, 0, 1, 0, 0, 1, 0]),
  ("E7",     [0, 0, 0, 0, 1, 0, 0, 0, 1, 0, 0, 1]),
  ("F7",     [1, 0, 0, 0, 0, 1, 0, 0, 0, 1, 0, 0]),
  ("F#7",    [0, 1, 0, 0, 0, 0, 1, 0, 0, 0, 1, 0]),
  ("G7",     [0, 0, 1, 0, 0, 0, 0, 1, 0, 0, 0, 1]),
  ("G#7",    [0, 0, 0, 1, 0, 0, 0, 0, 1, 0, 0, 0]),
  ("A7",     [1, 0, 0, 0, 1, 0, 0, 0, 0, 1, 0, 0]),
  ("A#7",    [0, 1, 0, 0, 0, 1, 0, 0, 0, 0, 1, 0]),
  ("B7",     [0, 0, 1, 0, 0, 0, 1, 0, 0, 0, 0, 1]),
  ("Cmaj7",  [1, 0, 0, 0, 1, 0, 0, 1, 0, 0, 0, 1]),
  ("C#maj7", [0, 1, 0, 0, 0, 1, 0, 0, 1, 0, 0, 0]),
  ("Dmaj7",  [0, 0, 1, 0, 0, 0, 1, 0, 0, 1, 0, 0]),
  ("D#maj7", [0, 0, 0, 1, 0, 0, 0, 1, 0, 0, 1, 0]),
  ("Emaj7",  [0, 0, 0, 0, 1, 0, 0, 0, 1, 0, 0, 1]),
  ("Fmaj7",  [1, 0, 0, 0, 0, 1, 0, 0, 0, 1, 0, 0]),
  ("F#maj7", [0, 1, 0, 0, 0, 0, 1, 0, 0, 0, 1, 0]),
  ("Gmaj7",  [0, 0, 1, 0, 0, 0, 0, 1, 0, 0, 0, 1]),
  ("G#maj7", [0, 0, 0, 1, 0, 0, 0, 0, 1, 0, 0, 0]),
  ("Amaj7",  [1, 0, 0, 0, 1, 0, 0, 0, 0, 1, 0, 0]),
  ("A#maj7", [0, 1, 0, 0, 0, 1, 0, 0, 0, 0, 1, 0]),
  ("Bmaj7",  [0, 0, 1, 0, 0, 0, 1, 0, 0, 0, 0, 1]),
  ("Cm7",    [1, 0, 0, 1, 0, 0, 0, 1, 0, 0, 1, 0]),
  ("C#m7",   [0, 1, 0, 0, 1, 0, 0, 0, 1, 0, 0, 1]),
  ("Dm7",    [0, 0, 1, 0, 0, 1, 0, 0, 0, 1, 0, 0]),
  ("D#m7",   [0, 0, 0, 1, 0, 0, 1, 0, 0, 0, 1, 0]),
  ("Em7",    [0, 0, 0, 0, 1, 0, 0, 1, 0, 0, 0, 1]),
  ("Fm7",    [1, 0, 0, 0, 0, 1, 0, 0, 1, 0, 0, 0]),
  ("F#m7",   [0, 1, 0, 0, 0, 0, 1, 0, 0, 1, 0, 0]),
  ("Gm7",    [0, 0, 1, 0, 0, 0, 0, 1, 0, 0, 1, 0]),
  ("G#m7",   [0, 0, 0, 1, 0, 0, 0, 0, 1, 0, 0, 1]),
  ("Am7",    [1, 0, 0, 0, 1, 0, 0, 0, 0, 1, 0, 0]),
  ("A#m7",   [0, 1, 0, 0, 0, 1, 0, 0, 0, 0, 1, 0]),
  ("Bm7",    [0, 0, 1, 0, 0, 0, 1, 0, 0, 0, 0, 1]),
  ("Bb7#11", [1, 0, 0, 1, 0, 1, 1, 0, 0, 0, 1, 0]),
  ("Bb6",    [1, 0, 1, 0, 0, 0, 0, 1, 0, 0, 1, 0]),
  ("Bb6/Ab", [1, 0, 1, 0, 0, 0, 0, 0, 1, 0, 1, 0]),
  ("Bb7",    [1, 0, 0, 1, 0, 0, 1, 0, 0, 0, 1, 0]),
  ("Bb",     [1, 0, 0, 1, 0, 0, 1, 0, 0, 0, 0, 0]),
  ("Bb9",    [1, 0, 0, 1, 0, 0, 1, 0, 0, 0, 1, 1])]

/-- Method 2 of `ChordTemplates.match_chord`: dot product of the chroma
normalized by its own max plus 1e-8 against the raw template. -/
def dot_score (v t : Chroma) : ℚ :=
  dotProd (v.map (fun x => x / (listMax v + 1/100000000))) t

/-- Method 3 of `ChordTemplates.match_chord`: fraction of template notes
(flag > 0) whose chroma value exceeds 0.1. -/
def presence_score (v t : Chroma) : ℚ :=
  (((t.zip v).countP (fun p => decide (0 < p.1) && decide (1/10 < p.2)) : ℚ)) /
    ((t.countP (fun x => decide (0 < x)) : ℚ))

/-- Combined score of `ChordTemplates.match_chord` for one template:
`0.4 * correlation + 0.4 * dot + 0.2 * presence + 0.01 * sum(template)`,
with a NaN correlation replaced by 0 (the `np.isnan` branch). -/
def combined_score (corr : Corr) (v t : Chroma) : ℚ :=
  (2/5) * (corr v t).getD 0 + (2/5) * dot_score v t
    + (1/5) * presence_score v t + t.sum * (1/100)

/-- The `for chord_name, template in cls.TEMPLATES.items()` loop of
`ChordTemplates.match_chord`: keep the (name, score) pair, updating only on a
strictly greater combined score. -/
def match_chord_go (corr : Corr) (v : Chroma) :
    List (String × Chroma) → String × ℚ → String × ℚ
  | [], acc => acc
  | (nm, t) :: rest, acc =>
      match_chord_go corr v rest
        (if acc.2 < combined_score corr v t then (nm, combined_score corr v t) else acc)

/-- `ChordTemplates.match_chord(chroma_vector, threshold)` from
`models/audio/templates.py` (default threshold 0.3 = 3/10): multi-metric
matching over all templates, then the threshold gate on the name only. -/
def match_chord (corr : Corr) (v : Chroma) (threshold : ℚ) : String × ℚ :=
  let best := match_chord_go corr v TEMPLATES (unknownS, 0)
  if threshold ≤ best.2 then best else (unknownS, best.2)

/-- Specification-side best pair, following the spec's words: the combined
score maximum over the library, the name being the first-seen template
attaining it (first-seen wins ties, per iteration order). -/
def specBest (corr : Corr) (v : Chroma) : String × ℚ :=
  let m := listMax (TEMPLATES.map (fun p => combined_score corr v p.2))
  (((TEMPLATES.find? (fun p => combined_score corr v p.2 = m)).map Prod.fst).getD unknownS, m)

/-- The eight-entry `self.chord_templates` dict of `ChordAnalyzer.__init__` in
`src/services/chord-analyzer/src/main.py`, in insertion order. -/
def chord_templates : List (String × Chroma) := [
  ("Bb7#11", [1, 0, 0, 1, 0, 1, 1, 0, 0, 0, 1, 0]),
  ("Bb7",    [1, 0, 0, 1, 0, 0, 1, 0, 0, 0, 1, 0]),
  ("Bb",     [1, 0, 0, 1, 0, 0, 1, 0, 0, 0, 0, 0]),
  ("Bb9",    [1, 0, 0, 1, 0, 0, 1, 0, 0, 0, 1, 1]),
  ("C",      [1, 0, 0, 0, 1, 0, 0, 1, 0, 0, 0, 0]),
  ("Am",     [1, 0, 0, 0, 1, 0, 0, 0, 0, 1, 0, 0]),
  ("F",      [1, 0, 0, 0, 0, 1, 0, 0, 0, 1, 0, 0]),
  ("G",      [0, 0, 1, 0, 0, 0, 0, 1, 0, 0, 0, 1])]

/-- The loop of `ChordAnalyzer.match_chord_template` (main.py): update the
best pair only when the correlation is not NaN and strictly exceeds the best
score so far (there is no NaN-to-zero conversion here, NaN entries are
skipped). -/
def match_chord_template_go (corr : Corr) (v : Chroma) :
    List (String × Chroma) → String × ℚ → String × ℚ
  | [], acc => acc
  | (nm, t) :: rest, acc =>
      match_chord_template_go corr v rest
        ((corr v t).elim acc (fun c => if acc.2 < c then (nm, c) else acc))

/-- `ChordAnalyzer.match_chord_template(chroma_vector)` from main.py: the
alternate correlation-only matcher.  Returns `(best_chord, max(0.0,
best_score))` with no threshold gate. -/
def match_chord_template (corr : Corr) (v : Chroma) : String × ℚ :=
  let best := match_chord_template_go corr v chord_templates (unknownS, 0)
  (best.1, max 0 best.2)

/-! ### Segmentation (`ChordRecognitionModel._segment_chord_regions`) -/

/-- `self.sample_rate` of `ChordRecognitionModel`. -/
def sample_rate : ℚ := 22050

/-- `self.hop_length` of `ChordRecognitionModel`. -/
def hop_length : ℚ := 512

/-- L1 distance between two consecutive chroma frames
(`np.sum(np.abs(np.diff(...)))` restricted to one frame step). -/
def colAbsDiff (a b : List ℚ) : ℚ :=
  ((a.zip b).map (fun p => |p.1 - p.2|)).sum

/-- `np.sum(np.abs(np.diff(chroma, axis=1)), axis=0)`: the list of L1
frame-to-frame distances of a chroma matrix (given as its list of frame
columns). -/
def chromaDiff : List (List ℚ) → List ℚ
  | [] => []
  | [_] => []
  | a :: b :: rest => colAbsDiff b a :: chromaDiff (b :: rest)

/-- Arithmetic mean (`np.mean`); the empty list gets the junk value 0
(numpy's NaN for an empty mean; both make the onset comparison below false on
every element of an empty list, so the two models agree). -/
def meanQ (l : List ℚ) : ℚ := l.sum / l.length

/-- Population variance, i.e. the square of `np.std` (default ddof=0). -/
def varQ (l : List ℚ) : ℚ := (l.map (fun x => (x - meanQ l) ^ 2)).sum / l.length

/-- The onset test `chroma_diff[t] > mean + std` of
`_segment_chord_regions`, written in the exactly equivalent square-free form:
since `std = sqrt(var) ≥ 0`, `d > mean + std` iff
`d > mean ∧ (d - mean)^2 > var`. -/
def isOnset (ds : List ℚ) (d : ℚ) : Bool :=
  decide (meanQ ds < d) && decide (varQ ds < (d - meanQ ds) ^ 2)

/-- `onsets = np.where(chroma_diff > onset_threshold)[0]`: indices of onset
frames, in increasing order. -/
def onsetIdx (ds : List ℚ) : List ℕ :=
  (List.range ds.length).filter (fun t => isOnset ds (ds.getD t 0))

/-- The onset walk of `_segment_chord_regions`: for each onset `o`, emit
`(prev, o)` when `o - prev` meets the minimum frame count `c`, and advance
`prev` to `o` regardless; after the loop, emit the trailing segment
`(prev, frames)` under the same test. -/
def segWalk (c : ℚ) (n : ℕ) (prev : ℕ) : List ℕ → List (ℕ × ℕ)
  | [] => if c ≤ ((n - prev : ℕ) : ℚ) then [(prev, n)] else []
  | o :: rest =>
      if c ≤ ((o - prev : ℕ) : ℚ) then (prev, o) :: segWalk c n o rest
      else segWalk c n o rest

/-- `ChordRecognitionModel._segment_chord_regions(chroma, min_duration)` from
`src/chord_analyzer.py` (default `min_duration = 0.5`).  The minimum frame
count is `min_duration * sample_rate / hop_length`. -/
def segment_chord_regions (min_duration : ℚ) (chroma : List (List ℚ)) :
    List (ℕ × ℕ) :=
  segWalk (min_duration * sample_rate / hop_length) chroma.length 0
    (onsetIdx (chromaDiff chroma))

/-! ### Chord event building (`_analyze_chord_segment` and helpers) -/

/-- The `pitch_classes` / `pitch_names` table used in `_analyze_chord_segment`
and `_classify_chord_quality`. -/
def pitch_names : List String :=
  ["C", "C#", "D", "D#"] ++ ["E", "F", "F#", "G"] ++ ["G#", "A", "A#", "B"]

/-- `np.roll(chroma, -root_idx)`: rotate left by `root_idx` (mod length). -/
def rotateChroma (l : List ℚ) (k : ℕ) : List ℚ :=
  l.drop (k % l.length) ++ l.take (k % l.length)

/-- The seven relative `chord_templates` of `_classify_chord_quality`, in
dict insertion order. -/
def quality_templates : List (String × List ℚ) := [
  ("major",      [1, 0, 0, 0, 1, 0, 0, 1, 0, 0, 0, 0]),
  ("minor",      [1, 0, 0, 1, 0, 0, 0, 1, 0, 0, 0, 0]),
  ("dominant7",  [1, 0, 0, 0, 1, 0, 0, 1, 0, 0, 1, 0]),
  ("major7",     [1, 0, 0, 0, 1, 0, 0, 1, 0, 0, 0, 1]),
  ("minor7",     [1, 0, 0, 1, 0, 0, 0, 1, 0, 0, 1, 0]),
  ("diminished", [1, 0, 0, 1, 0, 0, 1, 0, 0, 0, 0, 0]),
  ("augmented",  [1, 0, 0, 0, 1, 0, 0, 0, 1, 0, 0, 0])]

/-- Template normalization in `_classify_chord_quality`:
`template = template / np.sum(template)` guarded by `np.sum(template) > 0`. -/
def normalizeTemplate (t : List ℚ) : List ℚ :=
  if 0 < t.sum then t.map (fun x => x / t.sum) else t

/-- The quality loop of `_classify_chord_quality`: correlation of the rotated
chroma against each sum-normalized quality template with NaN replaced by 0,
keeping the strictly greatest score; the initial state is `('major', 0)`. -/
def classify_quality_go (corr : Corr) (rot : List ℚ) :
    List (String × List ℚ) → String × ℚ → String × ℚ
  | [], acc => acc
  | (q, t) :: rest, acc =>
      let s := (corr rot (normalizeTemplate t)).getD 0
      classify_quality_go corr rot rest (if acc.2 < s then (q, s) else acc)

/-- The if/elif suffix table building the chord symbol from the best quality
in `_classify_chord_quality` (quality `major`, or any unlisted value, adds no
suffix). -/
def qualitySuffix (q : String) : String :=
  if q = "minor" then "m"
  else if q = "dominant7" then "7"
  else if q = "major7" then "maj7"
  else if q = "minor7" then "m7"
  else if q = "diminished" then "dim"
  else if q = "augmented" then "aug"
  else ""

/-- `_detect_extensions(rotated_chroma)`: flag "9"/"11"/"13" when the rotated
chroma exceeds 0.3 at index 2/5/9 respectively. -/
def detect_extensions (rot : List ℚ) : List String :=
  (if 3/10 < rot.getD 2 0 then ["9"] else []) ++
  (if 3/10 < rot.getD 5 0 then ["11"] else []) ++
  (if 3/10 < rot.getD 9 0 then ["13"] else [])

/-- Result record of `_classify_chord_quality`. -/
structure QualityInfo where
  symbol : String
  quality : String
  extensions : List String
deriving DecidableEq, Repr

/-- `ChordRecognitionModel._classify_chord_quality(chroma, root_idx)` from
`src/chord_analyzer.py`. -/
def classify_chord_quality (corr : Corr) (chroma : List ℚ) (root_idx : ℕ) :
    QualityInfo :=
  let rot := rotateChroma chroma root_idx
  let best := classify_quality_go corr rot quality_templates ("major", 0)
  let root := pitch_names.getD root_idx emptyS
  { symbol := root ++ qualitySuffix best.1
    quality := best.1
    extensions := detect_extensions rot }

/-- First index of the maximum (`np.argmax`): ties resolve to the earliest
index. -/
def argmaxIdx (l : List ℚ) : ℕ :=
  (l.foldl (fun (acc : ℕ × ℕ × ℚ) x =>
    if acc.2.2 < x then (acc.1 + 1, acc.1, x) else (acc.1 + 1, acc.2.1, acc.2.2))
    (0, 0, l.headD 0)).2.1

/-- `np.argsort` ascending over a 12-entry vector, realized as a stable sort
of the index list by value (numpy's default introsort is not stable at ties;
its tie order is implementation defined and no verified claim depends on it,
so the embedding fixes the stable order). -/
def argsortAsc (l : List ℚ) : List ℕ :=
  (List.range l.length).mergeSort (fun i j =>
    decide (l.getD i 0 < l.getD j 0) ||
      (decide (l.getD i 0 = l.getD j 0) && decide (i ≤ j)))

/-- Pointwise mean of a list of frame columns (`np.mean(segment, axis=1)`),
producing the 12-entry average chroma of a segment. -/
def avgChroma (cols : List (List ℚ)) : List ℚ :=
  (List.range 12).map (fun i => ((cols.map (fun c => c.getD i 0)).sum) / cols.length)

/-- `ConfidenceUtils`-style `_calculate_confidence(chroma, top_values)` from
`src/chord_analyzer.py`; `sq` is the square-root oracle used by `np.std`
(its exact value is irrational and never pinned by a verified claim). -/
def calculate_confidence (sq : ℚ → ℚ) (top : List ℚ) : ℚ :=
  let clarity := listMax top / (top.sum + 1/1000000)
  let distinctness := (listMax top - meanQ top) / (sq (varQ top) + 1/1000000)
  min 1 ((clarity + distinctness) / 2)

/-- A chord event dict as produced by `_analyze_chord_segment` and
`_get_mock_chord_progression`. -/
structure ChordEvent where
  symbol : String
  start_time : ℚ
  end_time : ℚ
  confidence : ℚ
  root : String
  quality : String
  extensions : List String
deriving DecidableEq, Repr

/-- `ChordRecognitionModel._analyze_chord_segment(segment_chroma, start_frame,
end_frame)`: average the segment, take the top-4 pitch classes, pick the root,
classify quality/extensions, and attach timing and confidence. -/
def analyze_chord_segment (corr : Corr) (sq : ℚ → ℚ)
    (segment : List (List ℚ)) (start_frame end_frame : ℕ) : ChordEvent :=
  let avg := avgChroma segment
  let top_indices := (argsortAsc avg).drop (avg.length - 4)
  let top_values := top_indices.map (fun i => avg.getD i 0)
  let root_idx := top_indices.getD (argmaxIdx top_values) 0
  let root := pitch_names.getD root_idx emptyS
  let info := classify_chord_quality corr avg root_idx
  { symbol := info.symbol
    start_time := (start_frame : ℚ) * hop_length / sample_rate
    end_time := (end_frame : ℚ) * hop_length / sample_rate
    confidence := calculate_confidence sq top_values
    root := root
    quality := info.quality
    extensions := info.extensions }

/-- `ChordRecognitionModel._get_mock_chord_progression()`: the fixed
four-chord canned progression returned on any prediction error. -/
def get_mock_chord_progression : List ChordEvent := [
  { symbol := "Cmaj7", start_time := 0, end_time := 2, confidence := 87/100,
    root := "C", quality := "major7", extensions := ["7"] },
  { symbol := "Am7", start_time := 2, end_time := 4, confidence := 82/100,
    root := "A", quality := "minor7", extensions := ["7"] },
  { symbol := "Dm7", start_time := 4, end_time := 6, confidence := 85/100,
    root := "D", quality := "minor7", extensions := ["7"] },
  { symbol := "G7", start_time := 6, end_time := 8, confidence := 89/100,
    root := "G", quality := "dominant7", extensions := ["7"] }]

/-- `ChordRecognitionModel.predict`: the audio loading and chroma extraction
(librosa, external) is modelled by its outcome `extraction`; any exception in
the `try` block (`.error`) yields the canned mock progression, otherwise the
harmonic chroma matrix is segmented and each segment analyzed. -/
def predict (corr : Corr) (sq : ℚ → ℚ)
    (extraction : Except String (List (List ℚ))) : List ChordEvent :=
  match extraction with
  | .error _ => get_mock_chord_progression
  | .ok chroma =>
      (segment_chord_regions (1/2) chroma).map (fun se =>
        analyze_chord_segment corr sq ((chroma.drop se.1).take (se.2 - se.1)) se.1 se.2)

/-! ### `AudioUtils.normalize_vector` (models/audio/processing.py) -/

/-- `AudioUtils.normalize_vector(vector, epsilon=1e-8)`: divide by
`max + epsilon` when `max > epsilon`, else return the vector unchanged. -/
def normalize_vector (v : List ℚ) (epsilon : ℚ) : List ℚ :=
  if epsilon < listMax v then v.map (fun x => x / (listMax v + epsilon)) else v

/-! ### Key detection (`ChordAnalysisService.detect_key`) -/

/-- Python substring test `pat in s`, realized through `String.splitOn`
(for a non-empty pattern, `s.splitOn pat` has at least two pieces iff `pat`
occurs in `s`). -/
def strContains (s pat : String) : Bool :=
  decide (2 ≤ (s.splitOn pat).length)

/-- `s.split(pat)[0]`: the part of `s` before the first occurrence of
`pat`. -/
def part0 (s pat : String) : String := (s.splitOn pat).headD s

/-- One step of the `chord_counts` accumulation: bump the count of `c`,
appending a fresh key at the end on first sight (Python dict insertion
order). -/
def bumpCount : List (String × ℕ) → String → List (String × ℕ)
  | [], c => [(c, 1)]
  | (n, k) :: rest, c =>
      if n = c then (n, k + 1) :: rest else (n, k) :: bumpCount rest c

/-- The `chord_counts` dict of `detect_key`: count non-empty chord strings in
first-seen key order (`chord_data.get('chord', '')` is modelled by handing the
chord strings directly, an absent key becoming `""`). -/
def countChords (l : List String) : List (String × ℕ) :=
  l.foldl (fun acc c => if c = "" then acc else bumpCount acc c) []

/-- `max(chord_counts, key=chord_counts.get)`: Python's `max` keeps the
current item unless a later one is strictly greater, so the first key with
the maximal count wins. -/
def mostCommonOf : List (String × ℕ) → Option (String × ℕ)
  | [] => none
  | p :: rest =>
      some (rest.foldl (fun b q => if b.2 < q.2 then q else b) p)

/-- The labeling branches of `detect_key` applied to the most common chord
symbol. -/
def keyLabel (s : String) : String :=
  if strContains s majS || strContains s sevenS then
    part0 (part0 (part0 s majS) sevenS) mS ++ " Major"
  else if strContains s mS && !strContains s majS then
    part0 s mS ++ " Minor"
  else s ++ " (Unknown)"

/-- `ChordAnalysisService.detect_key(chords_data)` from
`services/chord_analysis_service.py`.  The surrounding `try/except` returning
"Unknown" guards code that cannot fail in this model (the `max` call is
reached only when the dict is non-empty). -/
def detect_key (l : List String) : String :=
  if l = [] then unknownS
  else
    match mostCommonOf (countChords l) with
    | none => unknownS
    | some p => keyLabel p.1

/-! ### Concrete oracle instances used by witnesses and counterexamples -/

/-- Is a list constant (all entries equal to the first)?  Used to model the
condition under which `np.corrcoef` yields NaN. -/
def isConstL (l : List ℚ) : Bool := l.all (fun x => decide (x = l.headD 0))

/-- Minimal concrete correlation model reproducing numpy's NaN behaviour:
`np.corrcoef(x, y)[0, 1]` is NaN exactly when `x` or `y` is constant (zero
variance).  The value on non-constant pairs is a placeholder (0, a legal
Pearson value); the statements that use this instance only evaluate it at
inputs where one argument is constant. -/
def corrConstNaN : Corr := fun a b => if isConstL a || isConstL b then none else some 0

/-- Minimal concrete correlation model capturing Pearson self-correlation:
1 on identical arguments (the self-correlation of any non-constant vector),
0 otherwise (a placeholder inside [-1, 1]; the statements that use this
instance only rely on the value at identical arguments and on the upper
bound 1). -/
def corrSelfOne : Corr := fun a b => if a = b then some 1 else some 0

/-- The exact Bb-D-F-Ab-E chroma pattern of the `Bb7#11` template. -/
def bbChroma : Chroma := [1, 0, 0, 1, 0, 1, 1, 0, 0, 0, 1, 0]

/-- The correlation-free part of the combined score of
`ChordTemplates.match_chord` (dot + presence + complexity bonus). -/
def rest_score (v t : Chroma) : ℚ :=
  (2/5) * dot_score v t + (1/5) * presence_score v t + t.sum * (1/100)

/-- The names the spec requires the library to contain: the five families
over the 12 pitch classes plus the named special chords. -/
def required_names : List String :=
  (pitch_names.map (fun r => [r, r ++ "m", r ++ "7", r ++ "maj7", r ++ "m7"])).flatten
    ++ ["Bb7#11", "Bb6", "Bb6/Ab", "Bb7", "Bb", "Bb9"]

/-- Consecutive pairs of a list of frame indices. -/
def consPairs (l : List ℕ) : List (ℕ × ℕ) := l.zip l.tail

/-- The walk points of the segmenter: frame 0, the onsets in order, then the
final frame count. -/
def segPoints (chroma : List (List ℚ)) : List ℕ :=
  0 :: onsetIdx (chromaDiff chroma) ++ [chroma.length]

/-! ### Basic lemmas about `listMax` -/

theorem foldl_max_init_le (t : List ℚ) (a : ℚ) : a ≤ t.foldl max a := by
  induction t generalizing a with
  | nil => exact le_refl a
  | cons x xs ih => exact le_trans (le_max_left a x) (ih (max a x))

theorem le_foldl_max_of_mem {t : List ℚ} {x : ℚ} (h : x ∈ t) (a : ℚ) :
    x ≤ t.foldl max a := by
  induction t generalizing a with
  | nil => cases h
  | cons y ys ih =>
      rcases List.mem_cons.mp h with rfl | hy
      · exact le_trans (le_max_right a x) (foldl_max_init_le ys (max a x))
      · exact ih hy (max a y)

theorem le_listMax {l : List ℚ} {x : ℚ} (h : x ∈ l) : x ≤ listMax l := by
  cases l with
  | nil => cases h
  | cons y ys =>
      rcases List.mem_cons.mp h with rfl | hy
      · exact foldl_max_init_le ys x
      · exact le_foldl_max_of_mem hy y

theorem foldl_max_mem (t : List ℚ) (a : ℚ) : t.foldl max a ∈ a :: t := by
  induction t generalizing a with
  | nil => exact List.mem_singleton.mpr rfl
  | cons x xs ih =>
      rw [List.foldl_cons]
      have h := ih (max a x)
      rcases List.mem_cons.mp h with heq | hmem
      · rcases max_choice a x with hc | hc
        · rw [heq, hc]
          exact List.mem_cons_self _ _
        · rw [heq, hc]
          exact List.mem_cons_of_mem _ (List.mem_cons_self _ _)
      · exact List.mem_cons_of_mem _ (List.mem_cons_of_mem _ hmem)

theorem listMax_mem {l : List ℚ} (h : l ≠ []) : listMax l ∈ l := by
  cases l with
  | nil => exact absurd rfl h
  | cons x xs => exact foldl_max_mem xs x

/-! ### C10: the chroma normalization helper -/

/-- C10: `AudioUtils.normalize_vector` with epsilon 1e-8 returns the input
unchanged when its maximum is at most epsilon (zero vector included), and
otherwise divides by `max + 1e-8`; every output entry is then strictly less
than 1 (so the maximum is never exactly 1), and the output entries are
non-negative provided the input entries are non-negative (the claim's blanket
non-negativity fails for inputs with negative entries, see the
counterexample). -/
theorem normalize_vector_spec (v : List ℚ) :
    (listMax v ≤ 1/100000000 → normalize_vector v (1/100000000) = v) ∧
    (1/100000000 < listMax v →
      normalize_vector v (1/100000000) =
        v.map (fun x => x / (listMax v + 1/100000000)) ∧
      (∀ x ∈ normalize_vector v (1/100000000), x < 1) ∧
      ((∀ y ∈ v, 0 ≤ y) → ∀ x ∈ normalize_vector v (1/100000000), 0 ≤ x)) := by
  constructor
  · intro h
    unfold normalize_vector
    rw [if_neg (not_lt.mpr h)]
  · intro h
    have hpos : 0 < listMax v + 1/100000000 := by
      have : (0:ℚ) < 1/100000000 := by norm_num
      linarith
    have hmap : normalize_vector v (1/100000000) =
        v.map (fun x => x / (listMax v + 1/100000000)) := by
      unfold normalize_vector
      rw [if_pos h]
    refine ⟨hmap, ?_, ?_⟩
    · intro x hx
      rw [hmap] at hx
      rcases List.mem_map.mp hx with ⟨y, hy, rfl⟩
      have hyle : y ≤ listMax v := le_listMax hy
      have : y < listMax v + 1/100000000 := by linarith [hyle]
      exact (div_lt_one hpos).mpr this
    · intro hnn x hx
      rw [hmap] at hx
      rcases List.mem_map.mp hx with ⟨y, hy, rfl⟩
      exact div_nonneg (hnn y hy) (le_of_lt hpos)

/-- C10 counterexample: on an input with a negative entry whose maximum
exceeds epsilon, the normalized output has a negative entry, refuting the
claim that every output entry is non-negative for every input vector. -/
theorem normalize_vector_counterexample :
    (normalize_vector [-1, 1, 0, 0, 0, 0, 0, 0, 0, 0, 0, 0] (1/100000000)).getD 0 0 < 0 := by
  exact of_decide_eq_true (by with_unfolding_all rfl)

/-- C10 witness: the amended theorem applied at the concrete vector
`[0, 1/2, 0, ..., 0]`, whose maximum 1/2 exceeds epsilon. -/
theorem normalize_vector_witness :
    (1/100000000 : ℚ) < listMax [0, 1/2, 0, 0, 0, 0, 0, 0, 0, 0, 0, 0] ∧
    (∀ x ∈ normalize_vector [0, 1/2, 0, 0, 0, 0, 0, 0, 0, 0, 0, 0] (1/100000000), x < 1) := by
  have h : (1/100000000 : ℚ) < listMax [0, 1/2, 0, 0, 0, 0, 0, 0, 0, 0, 0, 0] :=
    of_decide_eq_true (by with_unfolding_all rfl)
  exact ⟨h, ((normalize_vector_spec _).2 h).2.1⟩

/-! ### C3: shape of the template library -/

/-- C3 counterexample: some template pattern has flag sum strictly below 3
(the `G#`, `G#7` and `G#maj7` patterns have only two flags set), refuting the
claimed 3–6 range of the sums. -/
theorem templates_sum_counterexample : ∃ p ∈ TEMPLATES, p.2.sum < 3 := by
  exact of_decide_eq_true (by with_unfolding_all rfl)

/-- C3 (amended): the library contains a major, minor, dominant-7th,
major-7th and minor-7th entry for each of the 12 pitch classes plus the six
named special chords, and every pattern is a 12-element 0/1 vector whose flag
sum lies between 2 and 6 (the claimed lower bound 3 fails, see the
counterexample: three patterns have sum 2). -/
theorem templates_shape :
    (∀ nm ∈ required_names, nm ∈ TEMPLATES.map Prod.fst) ∧
    (∀ p ∈ TEMPLATES, p.2.length = 12 ∧ (∀ x ∈ p.2, x = 0 ∨ x = 1) ∧
      2 ≤ p.2.sum ∧ p.2.sum ≤ 6) := by
  exact of_decide_eq_true (by with_unfolding_all rfl)

/-! ### C8: prediction fallback -/

/-- C8: any upstream extraction failure makes `predict` return the fixed
four-chord canned progression (Cmaj7, Am7, Dm7, G7 at 2-second intervals),
while an empty segmentation is not an error and yields zero chord events. -/
theorem predict_fallback_spec (corr : Corr) (sq : ℚ → ℚ) :
    (∀ e : String, predict corr sq (.error e) = get_mock_chord_progression) ∧
    (get_mock_chord_progression.map (fun ev => (ev.symbol, ev.start_time, ev.end_time)) =
      [("Cmaj7", 0, 2), ("Am7", 2, 4), ("Dm7", 4, 6), ("G7", 6, 8)]) ∧
    (∀ chroma : List (List ℚ), segment_chord_regions (1/2) chroma = [] →
      predict corr sq (.ok chroma) = []) := by
  refine ⟨fun e => rfl, rfl, fun chroma h => ?_⟩
  simp only [predict, h, List.map_nil]

/-- C8 witness: the theorem applied at concrete oracles, a concrete error and
a concrete 10-frame constant chroma matrix (too short for the duration floor,
hence empty segmentation). -/
theorem predict_fallback_witness :
    predict corrSelfOne (fun _ => 0) (.error unknownS) = get_mock_chord_progression ∧
    segment_chord_regions (1/2) (List.replicate 10 (List.replicate 12 1)) = [] ∧
    predict corrSelfOne (fun _ => 0) (.ok (List.replicate 10 (List.replicate 12 1))) = [] := by
  have hseg : segment_chord_regions (1/2) (List.replicate 10 (List.replicate 12 1)) = [] :=
    of_decide_eq_true (by with_unfolding_all rfl)
  exact ⟨(predict_fallback_spec corrSelfOne (fun _ => 0)).1 unknownS, hseg,
    (predict_fallback_spec corrSelfOne (fun _ => 0)).2.2 _ hseg⟩

/-! ### Lemmas about the segmenter -/

theorem colAbsDiff_self (a : List ℚ) : colAbsDiff a a = 0 := by
  induction a with
  | nil => rfl
  | cons x xs ih =>
      unfold colAbsDiff at *
      simp only [List.zip_cons_cons, List.map_cons, List.sum_cons, ih]
      simp

theorem chromaDiff_zero : ∀ (chroma : List (List ℚ)),
    (∀ f ∈ chroma, ∀ g ∈ chroma, f = g) → ∀ d ∈ chromaDiff chroma, d = 0
  | [], _, d, hd => absurd hd (by simp [chromaDiff])
  | [_], _, d, hd => absurd hd (by simp [chromaDiff])
  | a :: b :: rest, h, d, hd => by
      rw [show chromaDiff (a :: b :: rest) = colAbsDiff b a :: chromaDiff (b :: rest) from rfl]
        at hd
      rcases List.mem_cons.mp hd with rfl | hmem
      · have hab : b = a := h b (by simp) a (by simp)
        rw [hab]
        exact colAbsDiff_self a
      · exact chromaDiff_zero (b :: rest)
          (fun f hf g hg => h f (List.mem_cons_of_mem _ hf) g (List.mem_cons_of_mem _ hg))
          d hmem

theorem chromaDiff_length : ∀ (chroma : List (List ℚ)),
    (chromaDiff chroma).length = chroma.length - 1
  | [] => rfl
  | [_] => rfl
  | a :: b :: rest => by
      rw [show chromaDiff (a :: b :: rest) = colAbsDiff b a :: chromaDiff (b :: rest) from rfl]
      simp only [List.length_cons, chromaDiff_length (b :: rest)]
      simp [Nat.succ_sub_one]

theorem meanQ_zeros {l : List ℚ} (h : ∀ x ∈ l, x = 0) : meanQ l = 0 := by
  unfold meanQ
  rw [List.sum_eq_zero h, zero_div]

theorem onsetIdx_nil_of_zeros {ds : List ℚ} (h : ∀ x ∈ ds, x = 0) :
    onsetIdx ds = [] := by
  unfold onsetIdx
  rw [List.filter_eq_nil_iff]
  intro t ht
  have htlen : t < ds.length := List.mem_range.mp ht
  have hval : ds.getD t 0 = 0 := by
    rw [List.getD_eq_getElem ds 0 htlen]
    exact h _ (List.getElem_mem htlen)
  unfold isOnset
  rw [hval, meanQ_zeros h]
  simp

/-- C5: on a constant chroma matrix (all frames equal) the segmenter emits
exactly one segment spanning the whole matrix when the frame count meets the
minimum-duration floor `0.5 * 22050 / 512 = 11025/512`, and no segment
otherwise; never more than one. -/
theorem segment_constant_spec (chroma : List (List ℚ))
    (h : ∀ f ∈ chroma, ∀ g ∈ chroma, f = g) :
    (segment_chord_regions (1/2) chroma = [(0, chroma.length)] ∧
      (11025/512 : ℚ) ≤ (chroma.length : ℚ)) ∨
    (segment_chord_regions (1/2) chroma = [] ∧ ((chroma.length : ℚ) < 11025/512)) := by
  have honset : onsetIdx (chromaDiff chroma) = [] :=
    onsetIdx_nil_of_zeros (chromaDiff_zero chroma h)
  have hc : (1/2 : ℚ) * sample_rate / hop_length = 11025/512 := by
    norm_num [sample_rate, hop_length]
  unfold segment_chord_regions
  rw [honset, hc]
  have hW : segWalk (11025/512) chroma.length 0 [] =
      if (11025/512 : ℚ) ≤ (chroma.length : ℚ) then [(0, chroma.length)] else [] := by
    simp [segWalk]
  rw [hW]
  by_cases hcase : (11025/512 : ℚ) ≤ (chroma.length : ℚ)
  · exact Or.inl ⟨if_pos hcase, hcase⟩
  · exact Or.inr ⟨if_neg hcase, lt_of_not_le hcase⟩

/-- C5 witness: a concrete constant 25-frame chroma matrix (above the
21.53-frame floor) produces the single whole-matrix segment. -/
theorem segment_constant_witness :
    (∀ f ∈ List.replicate 25 (List.replicate 12 (1:ℚ)),
      ∀ g ∈ List.replicate 25 (List.replicate 12 (1:ℚ)), f = g) ∧
    ((segment_chord_regions (1/2) (List.replicate 25 (List.replicate 12 (1:ℚ))) =
        [(0, (List.replicate 25 (List.replicate 12 (1:ℚ))).length)] ∧
      (11025/512 : ℚ) ≤ ((List.replicate 25 (List.replicate 12 (1:ℚ))).length : ℚ)) ∨
     (segment_chord_regions (1/2) (List.replicate 25 (List.replicate 12 (1:ℚ))) = [] ∧
      (((List.replicate 25 (List.replicate 12 (1:ℚ))).length : ℚ) < 11025/512))) := by
  have h : ∀ f ∈ List.replicate 25 (List.replicate 12 (1:ℚ)),
      ∀ g ∈ List.replicate 25 (List.replicate 12 (1:ℚ)), f = g := by
    intro f hf g hg
    rw [List.eq_of_mem_replicate hf, List.eq_of_mem_replicate hg]
  exact ⟨h, segment_constant_spec _ h⟩

theorem consPairs_cons (a b : ℕ) (l : List ℕ) :
    consPairs (a :: b :: l) = (a, b) :: consPairs (b :: l) := rfl

theorem segWalk_eq_filter (c : ℚ) (n : ℕ) : ∀ (os : List ℕ) (prev : ℕ),
    segWalk c n prev os =
      (consPairs (prev :: os ++ [n])).filter
        (fun ab => decide (c ≤ ((ab.2 - ab.1 : ℕ) : ℚ)))
  | [], prev => by
      show (if c ≤ ((n - prev : ℕ) : ℚ) then [(prev, n)] else []) = _
      by_cases hcase : c ≤ ((n - prev : ℕ) : ℚ)
      · simp [consPairs, List.filter, hcase]
      · simp [consPairs, List.filter, hcase]
  | o :: rest, prev => by
      show (if c ≤ ((o - prev : ℕ) : ℚ) then (prev, o) :: segWalk c n o rest
            else segWalk c n o rest) = _
      rw [show (prev :: (o :: rest) ++ [n]) = prev :: o :: (rest ++ [n]) from rfl,
        consPairs_cons, List.filter_cons, segWalk_eq_filter c n rest o]
      by_cases hcase : c ≤ ((o - prev : ℕ) : ℚ)
      · simp [hcase]
      · simp [hcase]

theorem onsetIdx_pairwise (ds : List ℚ) : (onsetIdx ds).Pairwise (· < ·) :=
  List.Pairwise.sublist (List.filter_sublist _) (List.pairwise_lt_range _)

theorem onsetIdx_lt_length {ds : List ℚ} {t : ℕ} (h : t ∈ onsetIdx ds) :
    t < ds.length :=
  List.mem_range.mp (List.mem_of_mem_filter h)

theorem segPoints_pairwise (chroma : List (List ℚ)) :
    (segPoints chroma).Pairwise (· ≤ ·) := by
  unfold segPoints
  refine List.pairwise_cons.mpr ⟨fun x _ => Nat.zero_le x, ?_⟩
  refine List.pairwise_append.mpr
    ⟨(onsetIdx_pairwise _).imp (fun h => le_of_lt h), List.pairwise_singleton _ _, ?_⟩
  intro o ho m hm
  rw [List.mem_singleton] at hm
  subst hm
  have h1 : o < (chromaDiff chroma).length := onsetIdx_lt_length ho
  have h2 : (chromaDiff chroma).length = chroma.length - 1 := chromaDiff_length chroma
  omega

theorem consPairs_pairwise : ∀ (l : List ℕ), l.Pairwise (· ≤ ·) →
    (consPairs l).Pairwise (fun x y : ℕ × ℕ => x.2 ≤ y.1)
  | [], _ => by simp [consPairs]
  | [_], _ => by simp [consPairs]
  | x :: y :: l, h => by
      rw [consPairs_cons]
      rcases List.pairwise_cons.mp h with ⟨_, hyl⟩
      refine List.Pairwise.cons ?_ (consPairs_pairwise (y :: l) hyl)
      rintro ⟨p1, p2⟩ hp
      have h1 : p1 ∈ y :: l := (List.of_mem_zip hp).1
      rcases List.pairwise_cons.mp hyl with ⟨hy, _⟩
      rcases List.mem_cons.mp h1 with rfl | hmem
      · exact le_refl _
      · exact hy _ hmem

/-- C6: for every chroma matrix and positive minimum duration, the segments
are exactly the consecutive pairs of the walk points (0, the onsets in order,
the frame count) whose gap meets the duration floor — so too-short gaps are
silently dropped while the walk still advances to every onset, and nothing is
merged — and every segment has `start < end`, with the segment list
non-overlapping and increasing. -/
theorem segmenter_invariants (chroma : List (List ℚ)) (minDur : ℚ)
    (h : 0 < minDur) :
    segment_chord_regions minDur chroma =
      (consPairs (segPoints chroma)).filter
        (fun ab => decide (minDur * sample_rate / hop_length ≤ ((ab.2 - ab.1 : ℕ) : ℚ))) ∧
    (∀ ab ∈ segment_chord_regions minDur chroma, ab.1 < ab.2) ∧
    (segment_chord_regions minDur chroma).Pairwise (fun x y => x.2 ≤ y.1) := by
  have heq : segment_chord_regions minDur chroma =
      (consPairs (segPoints chroma)).filter
        (fun ab => decide (minDur * sample_rate / hop_length ≤ ((ab.2 - ab.1 : ℕ) : ℚ))) := by
    unfold segment_chord_regions segPoints
    exact segWalk_eq_filter _ _ _ _
  refine ⟨heq, ?_, ?_⟩
  · intro ab hab
    rw [heq] at hab
    have hdec := List.of_mem_filter hab
    have hle : minDur * sample_rate / hop_length ≤ ((ab.2 - ab.1 : ℕ) : ℚ) :=
      of_decide_eq_true hdec
    have hcpos : 0 < minDur * sample_rate / hop_length := by
      have hs : (0:ℚ) < sample_rate := by norm_num [sample_rate]
      have hh : (0:ℚ) < hop_length := by norm_num [hop_length]
      positivity
    have hq : (0:ℚ) < ((ab.2 - ab.1 : ℕ) : ℚ) := lt_of_lt_of_le hcpos hle
    have hn : 0 < ab.2 - ab.1 := by exact_mod_cast hq
    omega
  · rw [heq]
    exact List.Pairwise.filter _ (consPairs_pairwise _ (segPoints_pairwise chroma))

/-- C6 witness: the invariants instantiated on a concrete 60-frame two-block
matrix with a genuine onset at frame 29 and the default 0.5-second floor. -/
theorem segmenter_invariants_witness :
    (0:ℚ) < 1/2 ∧
    (∀ ab ∈ segment_chord_regions (1/2)
        (List.replicate 30 (List.replicate 12 (0:ℚ)) ++
         List.replicate 30 (List.replicate 12 (10:ℚ))), ab.1 < ab.2) ∧
    (segment_chord_regions (1/2)
        (List.replicate 30 (List.replicate 12 (0:ℚ)) ++
         List.replicate 30 (List.replicate 12 (10:ℚ)))).Pairwise
      (fun x y => x.2 ≤ y.1) := by
  refine ⟨by norm_num, ?_, ?_⟩
  · exact (segmenter_invariants _ _ (by norm_num)).2.1
  · exact (segmenter_invariants _ _ (by norm_num)).2.2

/-! ### Lemmas about the multi-metric matcher fold -/

/-- Structure of the `match_chord` loop: either nothing ever beat the initial
accumulator (and every combined score is at most its score), or the result is
the first template attaining the strict running maximum: the library splits as
`u ++ p :: t` with every earlier template scoring strictly below `p` and every
template scoring at most `p`. -/
theorem match_chord_go_split (corr : Corr) (v : Chroma) :
    ∀ (l : List (String × Chroma)) (acc : String × ℚ),
      (match_chord_go corr v l acc = acc ∧
        ∀ q ∈ l, combined_score corr v q.2 ≤ acc.2) ∨
      (∃ u p t, l = u ++ p :: t ∧
        match_chord_go corr v l acc = (p.1, combined_score corr v p.2) ∧
        acc.2 < combined_score corr v p.2 ∧
        (∀ x ∈ u, combined_score corr v x.2 < combined_score corr v p.2) ∧
        (∀ x ∈ l, combined_score corr v x.2 ≤ combined_score corr v p.2))
  | [], acc => Or.inl ⟨rfl, by simp⟩
  | (nm, t) :: rest, acc => by
      by_cases hup : acc.2 < combined_score corr v t
      · have hgo : match_chord_go corr v ((nm, t) :: rest) acc =
            match_chord_go corr v rest (nm, combined_score corr v t) := by
          simp [match_chord_go, hup]
        rcases match_chord_go_split corr v rest (nm, combined_score corr v t) with
          ⟨heq, hall⟩ | ⟨u, p, tl, hdec, heq, hlt, hu, hall⟩

        · refine Or.inr ⟨[], (nm, t), rest, rfl, ?_, hup, by simp, ?_⟩
          · rw [hgo, heq]
          · intro x hx
            rcases List.mem_cons.mp hx with rfl | hx
            · exact le_refl _
            · exact hall x hx
        · refine Or.inr ⟨(nm, t) :: u, p, tl, by rw [hdec, List.cons_append], ?_, ?_, ?_, ?_⟩
          · rw [hgo, heq]
          · exact lt_trans hup hlt
          · intro x hx
            rcases List.mem_cons.mp hx with rfl | hx
            · exact hlt
            · exact hu x hx
          · intro x hx
            rcases List.mem_cons.mp hx with rfl | hx
            · exact le_of_lt hlt
            · exact hall x (hdec ▸ hx)
      · have hgo : match_chord_go corr v ((nm, t) :: rest) acc =
            match_chord_go corr v rest acc := by
          simp [match_chord_go, hup]
        rcases match_chord_go_split corr v rest acc with
          ⟨heq, hall⟩ | ⟨u, p, tl, hdec, heq, hlt, hu, hall⟩
        · refine Or.inl ⟨by rw [hgo, heq], ?_⟩
          intro q hq
          rcases List.mem_cons.mp hq with rfl | hq
          · exact le_of_not_lt hup
          · exact hall q hq
        · refine Or.inr ⟨(nm, t) :: u, p, tl, by rw [hdec, List.cons_append],
            by rw [hgo, heq], hlt, ?_, ?_⟩
          · intro x hx
            rcases List.mem_cons.mp hx with rfl | hx
            · exact lt_of_le_of_lt (le_of_not_lt hup) hlt
            · exact hu x hx
          · intro x hx
            rcases List.mem_cons.mp hx with rfl | hx
            · exact le_of_lt (lt_of_le_of_lt (le_of_not_lt hup) hlt)
            · exact hall x (hdec ▸ hx)

theorem find?_append_of_false {α : Type} (p : α → Bool) :
    ∀ (u rest : List α), (∀ x ∈ u, p x = false) →
      (u ++ rest).find? p = rest.find? p
  | [], rest, _ => rfl
  | x :: u, rest, h => by
      rw [List.cons_append, List.find?_cons_of_neg _ (by simp [h x (by simp)]),
        find?_append_of_false p u rest (fun y hy => h y (List.mem_cons_of_mem _ hy))]

theorem find?_first_max {α : Type} (f : α → ℚ) (M : ℚ) (u t : List α) (p : α)
    (hp : f p = M) (hu : ∀ x ∈ u, f x < M) :
    (u ++ p :: t).find? (fun q => decide (f q = M)) = some p := by
  rw [find?_append_of_false _ u _ ?side]
  · exact List.find?_cons_of_pos _ (by simp [hp])
  case side =>
    intro x hx
    simp only [decide_eq_false_iff_not]
    exact ne_of_lt (hu x hx)

/-- C1: `ChordTemplates.match_chord` agrees with the specification-side
description: the returned score is the greatest combined score over the whole
library (evaluated in iteration order), the returned name is the first-seen
template attaining it when that score meets the threshold, and "Unknown"
otherwise — the "Unknown" result still carrying the best raw combined score.
The hypothesis `hpos` (some template combines to a positive score) reflects
that the loop's running best starts at 0; it holds for every genuine Pearson
oracle on a chroma vector, since a NaN correlation is replaced by 0 and the
complexity bonus is positive. -/
theorem match_chord_spec (corr : Corr) (v : Chroma) (threshold : ℚ)
    (h12 : v.length = 12) (hpos : 0 < (specBest corr v).2) :
    match_chord corr v threshold =
      ((if threshold ≤ (specBest corr v).2 then (specBest corr v).1 else unknownS),
        (specBest corr v).2) := by
  obtain ⟨M, hMdef⟩ :
      ∃ M, listMax (TEMPLATES.map (fun p => combined_score corr v p.2)) = M := ⟨_, rfl⟩
  have hs2 : (specBest corr v).2 = M := hMdef
  have hs1 : (specBest corr v).1 =
      ((TEMPLATES.find? (fun q => decide (combined_score corr v q.2 = M))).map
        Prod.fst).getD unknownS := by
    unfold specBest
    simp only [hMdef]
  have hne : TEMPLATES.map (fun p => combined_score corr v p.2) ≠ [] := by
    have hlen : (TEMPLATES.map (fun p => combined_score corr v p.2)).length = 66 := by
      rw [List.length_map]
      rfl
    intro hnil
    rw [hnil] at hlen
    norm_num at hlen
  have hposM : 0 < M := hs2 ▸ hpos
  rcases match_chord_go_split corr v TEMPLATES (unknownS, 0) with
    ⟨heq, hall⟩ | ⟨u, p, t, hdec, heq, hlt, hu, hall⟩
  · exfalso
    rcases List.mem_map.mp (listMax_mem hne) with ⟨q, hq, hqe⟩
    have h1 : M ≤ 0 := by
      rw [← hMdef, ← hqe]
      exact hall q hq
    linarith
  · have hpmem : p ∈ TEMPLATES := by
      rw [hdec]
      exact List.mem_append_right _ (List.mem_cons_self _ _)
    have hple : combined_score corr v p.2 ≤ M := by
      rw [← hMdef]
      exact le_listMax (List.mem_map_of_mem _ hpmem)
    have hge : M ≤ combined_score corr v p.2 := by
      rw [← hMdef]
      rcases List.mem_map.mp (listMax_mem hne) with ⟨q, hq, hqe⟩
      rw [← hqe]
      exact hall q hq
    have hM : combined_score corr v p.2 = M := le_antisymm hple hge
    have hu2 : ∀ x ∈ u, combined_score corr v x.2 < M := fun x hx => hM ▸ hu x hx
    have hfind : TEMPLATES.find?
        (fun q => decide (combined_score corr v q.2 = M)) = some p := by
      rw [hdec]
      exact find?_first_max _ M u t p hM hu2
    simp only [match_chord]
    rw [heq, hs1, hs2, hfind]
    simp only [Option.map_some', Option.getD_some]
    show (if threshold ≤ combined_score corr v p.2 then (p.1, combined_score corr v p.2)
          else (unknownS, combined_score corr v p.2)) = _
    rw [hM]
    by_cases hth : threshold ≤ M
    · rw [if_pos hth, if_pos hth]
    · rw [if_neg hth, if_neg hth]

/-- C1 witness: the characterization applied to the Bb7#11 chroma pattern
with a concrete Pearson-consistent oracle at the default threshold. -/
theorem match_chord_spec_witness :
    bbChroma.length = 12 ∧ 0 < (specBest corrSelfOne bbChroma).2 ∧
    match_chord corrSelfOne bbChroma (3/10) =
      ((if (3/10 : ℚ) ≤ (specBest corrSelfOne bbChroma).2
        then (specBest corrSelfOne bbChroma).1 else unknownS),
        (specBest corrSelfOne bbChroma).2) := by
  have hpos : 0 < (specBest corrSelfOne bbChroma).2 :=
    of_decide_eq_true (by with_unfolding_all rfl)
  exact ⟨rfl, hpos, match_chord_spec corrSelfOne bbChroma (3/10) rfl hpos⟩

/-! ### C2: the Bb7#11 self-match -/

/-- C2 counterexample: with a Pearson-consistent oracle (self-correlation 1),
matching the exact Bb-D-F-Ab-E pattern at the default threshold returns
"Bb7#11" with combined score 5300000013/2000000020 ≈ 2.65, which exceeds 1 —
refuting the claimed score ≈ 1.0 and the claimed [0,1] range of match
scores. -/
theorem match_bb_counterexample :
    match_chord corrSelfOne bbChroma (3/10) = ("Bb7#11", 5300000013/2000000020) ∧
    (1 : ℚ) < 5300000013/2000000020 := by
  constructor
  · with_unfolding_all rfl
  · norm_num

/-- C2 (amended): for every correlation oracle that behaves like Pearson
correlation on the Bb7#11 pattern (self-correlation exactly 1, all values at
most 1), the matcher returns the name "Bb7#11" — but with combined score
5300000013/2000000020 = 0.65 + 2/(1 + 1e-8) ≈ 2.65, not ≈ 1.0; in particular
the returned score exceeds 1, so match scores do not lie in [0,1]. -/
theorem match_bb_spec (corr : Corr)
    (h1 : corr bbChroma bbChroma = some 1)
    (h2 : ∀ p ∈ TEMPLATES, (corr bbChroma p.2).getD 0 ≤ 1) :
    match_chord corr bbChroma (3/10) = ("Bb7#11", 5300000013/2000000020) ∧
    (1 : ℚ) < 5300000013/2000000020 := by
  have hrest : rest_score bbChroma bbChroma = 900000001/400000004 := by
    with_unfolding_all rfl
  have hbb : combined_score corr bbChroma bbChroma = 5300000013/2000000020 := by
    have e : combined_score corr bbChroma bbChroma =
        (2/5) * (corr bbChroma bbChroma).getD 0 + rest_score bbChroma bbChroma := by
      unfold combined_score rest_score
      ring
    rw [e, h1, hrest]
    norm_num
  have hmem : ("Bb7#11", bbChroma) ∈ TEMPLATES :=
    of_decide_eq_true (by with_unfolding_all rfl)
  have hdom0 : ∀ p ∈ TEMPLATES, p = ("Bb7#11", bbChroma) ∨
      rest_score bbChroma p.2 < rest_score bbChroma bbChroma :=
    of_decide_eq_true (by with_unfolding_all rfl)
  have hdom : ∀ p ∈ TEMPLATES, p = ("Bb7#11", bbChroma) ∨
      combined_score corr bbChroma p.2 < combined_score corr bbChroma bbChroma := by
    intro p hp
    rcases hdom0 p hp with h | h
    · exact Or.inl h
    · refine Or.inr ?_
      have e1 : combined_score corr bbChroma p.2 =
          (2/5) * (corr bbChroma p.2).getD 0 + rest_score bbChroma p.2 := by
        unfold combined_score rest_score
        ring
      have e2 : combined_score corr bbChroma bbChroma =
          (2/5) * (corr bbChroma bbChroma).getD 0 + rest_score bbChroma bbChroma := by
        unfold combined_score rest_score
        ring
      have hc : (2/5 : ℚ) * (corr bbChroma p.2).getD 0 ≤ 2/5 * 1 :=
        mul_le_mul_of_nonneg_left (h2 p hp) (by norm_num)
      rw [e1, e2, h1]
      simp only [Option.getD_some]
      linarith
  rcases match_chord_go_split corr bbChroma TEMPLATES (unknownS, 0) with
    ⟨heq, hall⟩ | ⟨u, p, t, hdec, heq, hlt, hu, hall⟩
  · exfalso
    have := hall _ hmem
    rw [show ("Bb7#11", bbChroma).2 = bbChroma from rfl, hbb] at this
    norm_num at this
  · have hpmem : p ∈ TEMPLATES := by
      rw [hdec]
      exact List.mem_append_right _ (List.mem_cons_self _ _)
    have hpentry : p = ("Bb7#11", bbChroma) := by
      rcases hdom p hpmem with h | h
      · exact h
      · exfalso
        have h1' := hall _ hmem
        rw [show ("Bb7#11", bbChroma).2 = bbChroma from rfl] at h1'
        linarith
    subst hpentry
    refine ⟨?_, by norm_num⟩
    simp only [match_chord]
    rw [heq]
    rw [show (("Bb7#11", bbChroma) : String × Chroma).2 = bbChroma from rfl, hbb]
    norm_num

/-- C2 witness: the amended theorem applied at the concrete Pearson-consistent
oracle `corrSelfOne`. -/
theorem match_bb_spec_witness :
    corrSelfOne bbChroma bbChroma = some 1 ∧
    (∀ p ∈ TEMPLATES, (corrSelfOne bbChroma p.2).getD 0 ≤ 1) ∧
    match_chord corrSelfOne bbChroma (3/10) = ("Bb7#11", 5300000013/2000000020) := by
  have ha : corrSelfOne bbChroma bbChroma = some 1 := by
    with_unfolding_all rfl
  have hb : ∀ p ∈ TEMPLATES, (corrSelfOne bbChroma p.2).getD 0 ≤ 1 :=
    of_decide_eq_true (by with_unfolding_all rfl)
  exact ⟨ha, hb, (match_bb_spec corrSelfOne ha hb).1⟩

/-! ### Lemmas about the correlation-only matcher (main.py) -/

theorem template_go_snd (corr : Corr) (v : Chroma) :
    ∀ (l : List (String × Chroma)) (acc : String × ℚ),
      (match_chord_template_go corr v l acc).2 =
        (l.filterMap (fun p => corr v p.2)).foldl max acc.2
  | [], acc => rfl
  | (nm, t) :: rest, acc => by
      simp only [match_chord_template_go, List.filterMap_cons]
      cases hc : corr v t with
      | none =>
          simp only [Option.elim_none]
          exact template_go_snd corr v rest acc
      | some c =>
          simp only [Option.elim_some, List.foldl_cons]
          by_cases hup : acc.2 < c
          · rw [if_pos hup, template_go_snd corr v rest (nm, c)]
            congr 1
            exact (max_eq_right (le_of_lt hup)).symm
          · rw [if_neg hup, template_go_snd corr v rest acc]
            congr 1
            exact (max_eq_left (le_of_not_lt hup)).symm

theorem template_go_id (corr : Corr) (v : Chroma) :
    ∀ (l : List (String × Chroma)) (acc : String × ℚ),
      (∀ p ∈ l, ∀ c, corr v p.2 = some c → c ≤ acc.2) →
      match_chord_template_go corr v l acc = acc
  | [], _, _ => rfl
  | (nm, t) :: rest, acc, h => by
      simp only [match_chord_template_go]
      have hrest : ∀ p ∈ rest, ∀ c, corr v p.2 = some c → c ≤ acc.2 :=
        fun p hp => h p (List.mem_cons_of_mem _ hp)
      cases hc : corr v t with
      | none =>
          simp only [Option.elim_none]
          exact template_go_id corr v rest acc hrest
      | some c =>
          have hle : c ≤ acc.2 := h (nm, t) (List.mem_cons_self _ _) c hc
          simp only [Option.elim_some]
          rw [if_neg (not_lt.mpr hle)]
          exact template_go_id corr v rest acc hrest

theorem template_go_name (corr : Corr) (v : Chroma) :
    ∀ (l : List (String × Chroma)) (acc : String × ℚ),
      (match_chord_template_go corr v l acc).1 = acc.1 ∨
        (match_chord_template_go corr v l acc).1 ∈ l.map Prod.fst
  | [], acc => Or.inl rfl
  | (nm, t) :: rest, acc => by
      simp only [match_chord_template_go, List.map_cons]
      cases hc : corr v t with
      | none =>
          simp only [Option.elim_none]
          rcases template_go_name corr v rest acc with h | h
          · exact Or.inl h
          · exact Or.inr (List.mem_cons_of_mem _ h)
      | some c =>
          simp only [Option.elim_some]
          by_cases hup : acc.2 < c
          · rw [if_pos hup]
            rcases template_go_name corr v rest (nm, c) with h | h
            · exact Or.inr (h ▸ List.mem_cons_self _ _)
            · exact Or.inr (List.mem_cons_of_mem _ h)
          · rw [if_neg hup]
            rcases template_go_name corr v rest acc with h | h
            · exact Or.inl h
            · exact Or.inr (List.mem_cons_of_mem _ h)

theorem template_go_name_of_lt (corr : Corr) (v : Chroma) :
    ∀ (l : List (String × Chroma)) (acc : String × ℚ),
      acc.2 < (match_chord_template_go corr v l acc).2 →
      (match_chord_template_go corr v l acc).1 ∈ l.map Prod.fst
  | [], acc, h => absurd h (lt_irrefl _)
  | (nm, t) :: rest, acc, h => by
      revert h
      simp only [match_chord_template_go, List.map_cons]
      cases hc : corr v t with
      | none =>
          simp only [Option.elim_none]
          intro h
          exact List.mem_cons_of_mem _ (template_go_name_of_lt corr v rest acc h)
      | some c =>
          simp only [Option.elim_some]
          by_cases hup : acc.2 < c
          · rw [if_pos hup]
            intro _
            rcases template_go_name corr v rest (nm, c) with h1 | h1
            · rw [h1]
              exact List.mem_cons_self _ _
            · exact List.mem_cons_of_mem _ h1
          · rw [if_neg hup]
            intro h
            exact List.mem_cons_of_mem _ (template_go_name_of_lt corr v rest acc h)

/-- C4 (amended): the correlation-only matcher `match_chord_template`
computes only the correlation against each of its eight templates, keeps the
strict running maximum, and returns `(name, max(0, best))` with no threshold
gate — any strictly positive non-NaN correlation, however weak, yields a
template name.  But when every correlation is NaN or non-positive it returns
`("Unknown", 0)`, so it does not *always* return a chord name (see the
counterexample). -/
theorem match_chord_template_spec (corr : Corr) (v : Chroma) :
    ((∀ p ∈ chord_templates, ∀ c, corr v p.2 = some c → c ≤ 0) →
      match_chord_template corr v = (unknownS, 0)) ∧
    ((∃ p ∈ chord_templates, ∃ c, corr v p.2 = some c ∧ 0 < c) →
      (match_chord_template corr v).1 ∈ chord_templates.map Prod.fst ∧
      (match_chord_template corr v).1 ≠ unknownS ∧
      0 < (match_chord_template corr v).2) ∧
    (match_chord_template corr v).2 =
      max 0 ((chord_templates.filterMap (fun p => corr v p.2)).foldl max 0) := by
  have hsnd : (match_chord_template_go corr v chord_templates (unknownS, 0)).2 =
      (chord_templates.filterMap (fun p => corr v p.2)).foldl max 0 :=
    template_go_snd corr v chord_templates (unknownS, 0)
  refine ⟨?_, ?_, ?_⟩
  · intro h
    have hid := template_go_id corr v chord_templates (unknownS, 0) h
    simp only [match_chord_template, hid]
    rfl
  · intro ⟨p, hp, c, hc, hcpos⟩
    have hcmem : c ∈ chord_templates.filterMap (fun p => corr v p.2) :=
      List.mem_filterMap.mpr ⟨p, hp, hc⟩
    have hbig : 0 < (match_chord_template_go corr v chord_templates (unknownS, 0)).2 := by
      rw [hsnd]
      exact lt_of_lt_of_le hcpos (le_foldl_max_of_mem hcmem 0)
    have hname : (match_chord_template_go corr v chord_templates (unknownS, 0)).1 ∈
        chord_templates.map Prod.fst :=
      template_go_name_of_lt corr v chord_templates (unknownS, 0) hbig
    have hnots : ∀ nm ∈ chord_templates.map Prod.fst, nm ≠ unknownS :=
      of_decide_eq_true (by with_unfolding_all rfl)
    refine ⟨hname, hnots _ hname, ?_⟩
    show 0 < max 0 (match_chord_template_go corr v chord_templates (unknownS, 0)).2
    exact lt_max_of_lt_right hbig
  · show max 0 (match_chord_template_go corr v chord_templates (unknownS, 0)).2 = _
    rw [hsnd]

/-- C4 counterexample: on the all-zero chroma vector every correlation is NaN
(numpy: both the chroma and each comparison involve a constant vector), so
the matcher returns `("Unknown", 0)` — refuting the claim that it always
returns a chord name. -/
theorem match_chord_template_counterexample :
    match_chord_template corrConstNaN
      [0, 0, 0, 0, 0, 0, 0, 0, 0, 0, 0, 0] = (unknownS, 0) := by
  with_unfolding_all rfl

/-- C4 witness: both branches of the characterization at concrete inputs —
the all-NaN branch on a constant chroma, and the positive branch under an
oracle that reports correlation 1/2 everywhere. -/
theorem match_chord_template_spec_witness :
    match_chord_template corrConstNaN (List.replicate 12 1) = (unknownS, 0) ∧
    0 < (match_chord_template (fun _ _ => some (1/2)) (List.replicate 12 1)).2 := by
  constructor
  · have hnan : ∀ p ∈ chord_templates,
        corrConstNaN (List.replicate 12 1) p.2 = none :=
      of_decide_eq_true (by with_unfolding_all rfl)
    refine (match_chord_template_spec corrConstNaN (List.replicate 12 1)).1 ?_
    intro p hp c hc
    rw [hnan p hp] at hc
    cases hc
  · have hmem : ("Bb7#11", ([1, 0, 0, 1, 0, 1, 1, 0, 0, 0, 1, 0] : Chroma)) ∈
        chord_templates := of_decide_eq_true (by with_unfolding_all rfl)
    exact ((match_chord_template_spec (fun _ _ => some (1/2))
      (List.replicate 12 1)).2.1 ⟨_, hmem, 1/2, rfl, by norm_num⟩).2.2

/-! ### C9: failure behaviour of quality classification and key estimation -/

theorem classify_go_id (corr : Corr) (rot : List ℚ) :
    ∀ (l : List (String × List ℚ)) (acc : String × ℚ),
      (∀ q ∈ l, ((corr rot (normalizeTemplate q.2)).getD 0) ≤ acc.2) →
      classify_quality_go corr rot l acc = acc
  | [], _, _ => rfl
  | (q, t) :: rest, acc, h => by
      show classify_quality_go corr rot rest _ = acc
      have hle : ((corr rot (normalizeTemplate t)).getD 0) ≤ acc.2 :=
        h (q, t) (List.mem_cons_self _ _)
      rw [if_neg (not_lt.mpr hle)]
      exact classify_go_id corr rot rest acc
        (fun x hx => h x (List.mem_cons_of_mem _ hx))

theorem countChords_go_empty :
    ∀ (l : List String) (acc : List (String × ℕ)), (∀ s ∈ l, s = "") →
      l.foldl (fun acc c => if c = "" then acc else bumpCount acc c) acc = acc
  | [], _, _ => rfl
  | c :: rest, acc, h => by
      have hc : c = "" := h c (List.mem_cons_self _ _)
      show List.foldl _ (if c = "" then acc else bumpCount acc c) rest = acc
      rw [if_pos hc]
      exact countChords_go_empty rest acc (fun s hs => h s (List.mem_cons_of_mem _ hs))

/-- C9 (amended): quality classification never raises but does not degrade to
"Unknown": when every quality-template correlation is NaN or non-positive the
loop keeps its initial state and the result is the default quality "major"
with the bare root symbol (no suffix).  Key estimation does degrade to the
"Unknown" sentinel: on an empty event list, and when no event carries a
non-empty chord string. -/
theorem classify_quality_failure_spec (corr : Corr) (chroma : List ℚ)
    (root_idx : ℕ)
    (hfail : ∀ q ∈ quality_templates,
      ((corr (rotateChroma chroma root_idx) (normalizeTemplate q.2)).getD 0) ≤ 0) :
    (classify_chord_quality corr chroma root_idx).quality = "major" ∧
    (classify_chord_quality corr chroma root_idx).symbol =
      pitch_names.getD root_idx emptyS ∧
    detect_key [] = unknownS ∧
    (∀ l : List String, (∀ s ∈ l, s = "") → detect_key l = unknownS) := by
  have hgo : classify_quality_go corr (rotateChroma chroma root_idx)
      quality_templates ("major", 0) = ("major", 0) :=
    classify_go_id corr _ quality_templates ("major", 0) hfail
  have hsuf : qualitySuffix ("major") = emptyS := by with_unfolding_all rfl
  refine ⟨?_, ?_, rfl, ?_⟩
  · show (classify_quality_go corr _ quality_templates ("major", 0)).1 = "major"
    rw [hgo]
  · show pitch_names.getD root_idx emptyS ++
      qualitySuffix (classify_quality_go corr _ quality_templates ("major", 0)).1 = _
    rw [hgo]
    show pitch_names.getD root_idx emptyS ++ qualitySuffix ("major") = _
    rw [hsuf]
    exact String.append_empty _
  · intro l hl
    have hcount : countChords l = [] := countChords_go_empty l [] hl
    unfold detect_key
    by_cases hnil : l = []
    · rw [if_pos hnil]
    · rw [if_neg hnil, hcount]
      rfl

/-- C9 counterexample: on a constant chroma vector (every quality-template
correlation NaN per numpy), the quality classifier returns symbol "C" with
quality "major" and all three extensions — nowhere the "Unknown" sentinel
the claim promises for failed quality classification. -/
theorem classify_quality_counterexample :
    classify_chord_quality corrConstNaN (List.replicate 12 1) 0 =
      { symbol := "C", quality := "major", extensions := ["9", "11", "13"] } ∧
    (classify_chord_quality corrConstNaN (List.replicate 12 1) 0).quality ≠
      unknownS := by
  constructor
  · with_unfolding_all rfl
  · with_unfolding_all decide

/-- C9 witness: the amended theorem applied with the NaN-on-constant oracle
on a constant chroma vector and on the list of two empty chord strings. -/
theorem classify_quality_failure_witness :
    (classify_chord_quality corrConstNaN (List.replicate 12 1) 0).quality = "major" ∧
    detect_key ["", ""] = unknownS := by
  have hfail : ∀ q ∈ quality_templates,
      ((corrConstNaN (rotateChroma (List.replicate 12 1) 0)
        (normalizeTemplate q.2)).getD 0) ≤ 0 := by
    have hnan : ∀ q ∈ quality_templates,
        corrConstNaN (rotateChroma (List.replicate 12 1) 0)
          (normalizeTemplate q.2) = none :=
      of_decide_eq_true (by with_unfolding_all rfl)
    intro q hq
    rw [hnan q hq]
    norm_num
  refine ⟨(classify_quality_failure_spec corrConstNaN _ 0 hfail).1, ?_⟩
  exact (classify_quality_failure_spec corrConstNaN (List.replicate 12 1) 0 hfail).2.2.2
    ["", ""] (by intro s hs; simpa using hs)

/-! ### Lemmas about `detect_key`'s counting dict -/

/-- Reading the count dict: the value stored at the first entry whose key is
`n`, 0 when absent. -/
def cnt : List (String × ℕ) → String → ℕ
  | [], _ => 0
  | (m, k) :: rest, n => if m = n then k else cnt rest n

/-- The key list of the count dict, in insertion order. -/
def keysOf (acc : List (String × ℕ)) : List String := acc.map Prod.fst

theorem bump_cnt : ∀ (acc : List (String × ℕ)) (c n : String),
    cnt (bumpCount acc c) n = if n = c then cnt acc n + 1 else cnt acc n
  | [], c, n => by
      by_cases h : n = c
      · subst h
        simp [bumpCount, cnt]
      · have h2 : ¬ c = n := fun hcontra => h hcontra.symm
        simp [bumpCount, cnt, h, h2]
  | (m, k) :: rest, c, n => by
      by_cases hmc : m = c
      · subst hmc
        by_cases hnm : m = n
        · subst hnm
          simp [bumpCount, cnt]
        · have hnm2 : ¬ n = m := fun h => hnm h.symm
          simp [bumpCount, cnt, hnm, hnm2]
      · by_cases hmn : m = n
        · subst hmn
          have hnc : ¬ m = c := hmc
          simp [bumpCount, cnt, hmc, hnc]
        · simp [bumpCount, cnt, hmc, hmn, bump_cnt rest c n]

theorem bump_keys : ∀ (acc : List (String × ℕ)) (c : String),
    keysOf (bumpCount acc c) =
      if c ∈ keysOf acc then keysOf acc else keysOf acc ++ [c]
  | [], c => by simp [bumpCount, keysOf]
  | (m, k) :: rest, c => by
      by_cases hmc : m = c
      · subst hmc
        simp [bumpCount, keysOf]
      · have hne : c ≠ m := fun h => hmc h.symm
        have hbk := bump_keys rest c
        simp only [keysOf] at hbk ⊢
        simp only [bumpCount, if_neg hmc, List.map_cons, hbk]
        by_cases hmem : c ∈ List.map Prod.fst rest
        · rw [if_pos hmem, if_pos (List.mem_cons_of_mem _ hmem)]
        · rw [if_neg hmem, if_neg (by simp [hne, hmem]), List.cons_append]

theorem cnt_of_mem_nodup : ∀ (acc : List (String × ℕ)) (s : String) (k : ℕ),
    (keysOf acc).Nodup → (s, k) ∈ acc → cnt acc s = k
  | [], _, _, _, h => absurd h (List.not_mem_nil _)
  | (m, k0) :: rest, s, k, hnd, hmem => by
      rcases List.mem_cons.mp hmem with heq | hmem2
      · have h1 : s = m := congrArg Prod.fst heq
        have h2 : k = k0 := congrArg Prod.snd heq
        subst h1
        simp [cnt, h2]
      · have hkey : s ∈ keysOf rest := List.mem_map_of_mem Prod.fst hmem2
        have hms : m ≠ s := by
          intro hcontra
          subst hcontra
          exact (List.nodup_cons.mp hnd).1 hkey
        simp only [cnt, if_neg hms]
        exact cnt_of_mem_nodup rest s k (List.nodup_cons.mp hnd).2 hmem2

theorem indexOf_append_fresh {a : String} : ∀ (l : List String), a ∉ l →
    (l ++ [a]).indexOf a = l.length
  | [], _ => by simp
  | x :: l, h => by
      have hxa : x ≠ a := fun hc => h (hc ▸ List.mem_cons_self _ _)
      have hal : a ∉ l := fun hc => h (List.mem_cons_of_mem _ hc)
      simp only [List.cons_append, List.length_cons]
      rw [List.indexOf_cons_ne _ hxa, indexOf_append_fresh l hal]

/-- First-max split of the Python `max(…, key=…)` fold: the initial item
followed by the rest splits as `u ++ winner :: t`, where everything before
the winner scores strictly below it and nothing scores above it. -/
theorem foldl_pick_split :
    ∀ (rest : List (String × ℕ)) (b : String × ℕ),
      ∃ u t, b :: rest = u ++ (rest.foldl (fun x q => if x.2 < q.2 then q else x) b) :: t ∧
        (∀ q ∈ u, q.2 < (rest.foldl (fun x q => if x.2 < q.2 then q else x) b).2) ∧
        (∀ q ∈ b :: rest, q.2 ≤ (rest.foldl (fun x q => if x.2 < q.2 then q else x) b).2)
  | [], b => ⟨[], [], rfl, by simp, by
      intro q hq
      rw [List.mem_singleton.mp hq]
      exact le_refl _⟩
  | q :: rest, b => by
      by_cases hup : b.2 < q.2
      · have hstep : (q :: rest).foldl (fun x q => if x.2 < q.2 then q else x) b =
            rest.foldl (fun x q => if x.2 < q.2 then q else x) q := by
          simp only [List.foldl_cons, if_pos hup]
        rcases foldl_pick_split rest q with ⟨u, t, hdec, hu, hall⟩
        refine ⟨b :: u, t, ?_, ?_, ?_⟩
        · rw [hstep, show b :: q :: rest = b :: (q :: rest) from rfl, hdec,
            List.cons_append]
        · intro x hx
          rw [hstep]
          rcases List.mem_cons.mp hx with rfl | hx2
          · exact lt_of_lt_of_le hup (hall q (List.mem_cons_self _ _))
          · exact hu x hx2
        · intro x hx
          rw [hstep]
          rcases List.mem_cons.mp hx with rfl | hx2
          · exact le_of_lt (lt_of_lt_of_le hup (hall q (List.mem_cons_self _ _)))
          · exact hall x hx2
      · have hstep : (q :: rest).foldl (fun x q => if x.2 < q.2 then q else x) b =
            rest.foldl (fun x q => if x.2 < q.2 then q else x) b := by
          simp only [List.foldl_cons, if_neg hup]
        rcases foldl_pick_split rest b with ⟨u, t, hdec, hu, hall⟩
        cases u with
        | nil =>
            have hr : rest.foldl (fun x q => if x.2 < q.2 then q else x) b = b :=
              (List.cons.injEq _ _ _ _ ▸ hdec).1.symm
            refine ⟨[], q :: rest, ?_, by simp, ?_⟩
            · rw [hstep, hr]
              rfl
            · intro x hx
              rw [hstep, hr]
              rcases List.mem_cons.mp hx with rfl | hx2
              · exact le_refl _
              · rcases List.mem_cons.mp hx2 with rfl | hx3
                · exact le_of_not_lt hup
                · have := hall x (List.mem_cons_of_mem _ hx3)
                  rw [hr] at this
                  exact this
        | cons x u2 =>
            obtain ⟨hbx, hrest⟩ := (List.cons.injEq _ _ _ _).mp hdec
            rw [← hbx] at hu
            have hbr : b.2 < (rest.foldl (fun x q => if x.2 < q.2 then q else x) b).2 :=
              hu b (List.mem_cons_self _ _)
            refine ⟨b :: q :: u2, t, ?_, ?_, ?_⟩
            · rw [hstep]
              exact congrArg (fun z => b :: q :: z) hrest
            · intro y hy
              rw [hstep]
              rcases List.mem_cons.mp hy with rfl | hy2
              · exact hbr
              · rcases List.mem_cons.mp hy2 with rfl | hy3
                · exact lt_of_le_of_lt (le_of_not_lt hup) hbr
                · exact hu y (List.mem_cons_of_mem _ hy3)
            · intro y hy
              rw [hstep]
              rcases List.mem_cons.mp hy with rfl | hy2
              · exact le_of_lt hbr
              · rcases List.mem_cons.mp hy2 with rfl | hy3
                · exact le_of_lt (lt_of_le_of_lt (le_of_not_lt hup) hbr)
                · exact hall y (List.mem_cons_of_mem _ hy3)

/-- Invariant of the `chord_counts` accumulation: walking `l` with processed
prefix `pref`, the dict holds exactly the counts of the non-empty strings
seen, its keys are exactly the non-empty strings seen, are distinct, and are
ordered by first occurrence. -/
theorem countChords_go_invariant :
    ∀ (l : List String) (acc : List (String × ℕ)) (pref : List String),
      (∀ n, n ≠ emptyS → cnt acc n = pref.count n) →
      (∀ n, n ∈ keysOf acc ↔ (n ≠ emptyS ∧ n ∈ pref)) →
      (keysOf acc).Nodup →
      (keysOf acc).Pairwise (fun a b => pref.indexOf a < pref.indexOf b) →
      (∀ n, n ≠ emptyS →
        cnt (l.foldl (fun acc c => if c = emptyS then acc else bumpCount acc c) acc) n =
          (pref ++ l).count n) ∧
      (∀ n, n ∈ keysOf
          (l.foldl (fun acc c => if c = emptyS then acc else bumpCount acc c) acc) ↔
        (n ≠ emptyS ∧ n ∈ pref ++ l)) ∧
      (keysOf (l.foldl (fun acc c => if c = emptyS then acc else bumpCount acc c) acc)).Nodup ∧
      (keysOf (l.foldl (fun acc c => if c = emptyS then acc else bumpCount acc c) acc)).Pairwise
        (fun a b => (pref ++ l).indexOf a < (pref ++ l).indexOf b)
  | [], acc, pref, hcnt, hkeys, hnodup, hpair => by
      simpa using ⟨hcnt, hkeys, hnodup, hpair⟩
  | c :: rest, acc, pref, hcnt, hkeys, hnodup, hpair => by
      rw [List.foldl_cons, List.append_cons]
      by_cases hce : c = emptyS
      · rw [if_pos hce]
        refine countChords_go_invariant rest acc (pref ++ [c]) ?_ ?_ hnodup ?_
        · intro n hn
          rw [List.count_append, hcnt n hn]
          have hnc : ¬ n = c := fun h => hn (h.trans hce)
          have : ([c].count n) = 0 := by
            simp [List.count_singleton', hnc]
          omega
        · intro n
          rw [hkeys n]
          constructor
          · rintro ⟨hn, hmem⟩
            exact ⟨hn, List.mem_append_left _ hmem⟩
          · rintro ⟨hn, hmem⟩
            rcases List.mem_append.mp hmem with hmem | hmem
            · exact ⟨hn, hmem⟩
            · exact absurd ((List.mem_singleton.mp hmem).trans hce) hn
        · refine hpair.imp_of_mem ?_
          intro a b ha hb hab
          have hamem : a ∈ pref := ((hkeys a).mp ha).2
          have hbmem : b ∈ pref := ((hkeys b).mp hb).2
          rw [List.indexOf_append_of_mem hamem, List.indexOf_append_of_mem hbmem]
          exact hab
      · rw [if_neg hce]
        have hbkeys := bump_keys acc c
        by_cases hcmem : c ∈ keysOf acc
        · rw [if_pos hcmem] at hbkeys
          have hcpref : c ∈ pref := ((hkeys c).mp hcmem).2
          refine countChords_go_invariant rest (bumpCount acc c) (pref ++ [c]) ?_ ?_
            (hbkeys ▸ hnodup) ?_
          · intro n hn
            rw [bump_cnt acc c n, List.count_append]
            by_cases hnc : n = c
            · subst hnc
              simp [hcnt n hn, List.count_singleton']
            · have : ([c].count n) = 0 := by
                simp [List.count_singleton', hnc]
              simp [hnc, hcnt n hn, this]
          · intro n
            rw [hbkeys, hkeys n]
            constructor
            · rintro ⟨hn, hmem⟩
              exact ⟨hn, List.mem_append_left _ hmem⟩
            · rintro ⟨hn, hmem⟩
              rcases List.mem_append.mp hmem with hmem | hmem
              · exact ⟨hn, hmem⟩
              · rw [List.mem_singleton.mp hmem]
                exact ⟨hce, hcpref⟩
          · rw [hbkeys]
            refine hpair.imp_of_mem ?_
            intro a b ha hb hab
            have hamem : a ∈ pref := ((hkeys a).mp ha).2
            have hbmem : b ∈ pref := ((hkeys b).mp hb).2
            rw [List.indexOf_append_of_mem hamem, List.indexOf_append_of_mem hbmem]
            exact hab
        · rw [if_neg hcmem] at hbkeys
          have hcpref : c ∉ pref := by
            intro hmem
            exact hcmem ((hkeys c).mpr ⟨hce, hmem⟩)
          refine countChords_go_invariant rest (bumpCount acc c) (pref ++ [c]) ?_ ?_ ?_ ?_
          · intro n hn
            rw [bump_cnt acc c n, List.count_append]
            by_cases hnc : n = c
            · subst hnc
              simp [hcnt n hn, List.count_singleton']
            · have : ([c].count n) = 0 := by
                simp [List.count_singleton', hnc]
              simp [hnc, hcnt n hn, this]
          · intro n
            rw [hbkeys]
            constructor
            · intro hmem
              rcases List.mem_append.mp hmem with hmem | hmem
              · obtain ⟨hn, hp⟩ := (hkeys n).mp hmem
                exact ⟨hn, List.mem_append_left _ hp⟩
              · rw [List.mem_singleton.mp hmem]
                exact ⟨hce, List.mem_append_right _ (List.mem_singleton.mpr rfl)⟩
            · rintro ⟨hn, hmem⟩
              rcases List.mem_append.mp hmem with hmem | hmem
              · exact List.mem_append_left _ ((hkeys n).mpr ⟨hn, hmem⟩)
              · exact List.mem_append_right _ hmem
          · rw [hbkeys]
            simp [List.nodup_append, hnodup, hcmem]
          · rw [hbkeys]
            refine List.pairwise_append.mpr ⟨?_, List.pairwise_singleton _ _, ?_⟩
            · refine hpair.imp_of_mem ?_
              intro a b ha hb hab
              have hamem : a ∈ pref := ((hkeys a).mp ha).2
              have hbmem : b ∈ pref := ((hkeys b).mp hb).2
              rw [List.indexOf_append_of_mem hamem, List.indexOf_append_of_mem hbmem]
              exact hab
            · intro a ha b hb
              rw [List.mem_singleton.mp hb]
              have hamem : a ∈ pref := ((hkeys a).mp ha).2
              rw [List.indexOf_append_of_mem hamem, indexOf_append_fresh pref hcpref]
              exact lt_of_lt_of_le (List.indexOf_lt_length.mpr hamem) (le_refl _)

/-- The `chord_counts` dict of `detect_key` counts exactly the non-empty
chord strings of the input, with distinct keys in first-occurrence order. -/
theorem countChords_props (l : List String) :
    (∀ n, n ≠ emptyS → cnt (countChords l) n = l.count n) ∧
    (∀ n, n ∈ keysOf (countChords l) ↔ (n ≠ emptyS ∧ n ∈ l)) ∧
    (keysOf (countChords l)).Nodup ∧
    (keysOf (countChords l)).Pairwise (fun a b => l.indexOf a < l.indexOf b) := by
  have h := countChords_go_invariant l [] []
    (by intro n _; simp [cnt]) (by simp [keysOf]) (by simp [keysOf]) (by simp [keysOf])
  simpa [countChords] using h

/-- C7: `detect_key` returns "Unknown" on an empty event sequence; otherwise
it counts exact symbol occurrences among the non-empty chord strings, takes
the most frequent one with first-seen winning ties (count never smaller, and
never later-seen among equal counts), and labels it via the maj/7 → "<root>
Major", m-but-not-maj → "<root> Minor", otherwise "<symbol> (Unknown)"
branches; in particular three events all carrying "Bb7#11" yield "Bb Major",
which contains "Bb". -/
theorem detect_key_spec :
    (detect_key [] = unknownS) ∧
    (∀ l : List String, (∃ s ∈ l, s ≠ emptyS) →
      ∃ w ∈ l, w ≠ emptyS ∧
        (∀ s ∈ l, s ≠ emptyS → l.count s ≤ l.count w) ∧
        (∀ s ∈ l, s ≠ emptyS → l.count s = l.count w → l.indexOf w ≤ l.indexOf s) ∧
        detect_key l = keyLabel w) ∧
    (∀ s, (strContains s majS || strContains s sevenS) = true →
      keyLabel s = part0 (part0 (part0 s majS) sevenS) mS ++ " Major") ∧
    (∀ s, (strContains s majS || strContains s sevenS) = false →
      strContains s mS = true → keyLabel s = part0 s mS ++ " Minor") ∧
    (∀ s, (strContains s majS || strContains s sevenS) = false →
      strContains s mS = false → keyLabel s = s ++ " (Unknown)") ∧
    detect_key (List.replicate 3 ("Bb7#11")) = "Bb Major" ∧
    strContains ("Bb Major") ("Bb") = true := by
  refine ⟨rfl, ?_, ?_, ?_, ?_, by with_unfolding_all rfl, by with_unfolding_all rfl⟩
  · rintro l ⟨s0, hs0mem, hs0ne⟩
    obtain ⟨hcnt, hkeys, hnodup, hpair⟩ := countChords_props l
    have hkey0 : s0 ∈ keysOf (countChords l) := (hkeys s0).mpr ⟨hs0ne, hs0mem⟩
    cases hacc : countChords l with
    | nil =>
        rw [hacc] at hkey0
        exact absurd hkey0 (by simp [keysOf])
    | cons p restAcc =>
        rw [hacc] at hcnt hkeys hnodup hpair
        obtain ⟨u, t, hdec, hu, hall⟩ := foldl_pick_split restAcc p
        have hrmem : restAcc.foldl (fun x q => if x.2 < q.2 then q else x) p ∈
            p :: restAcc := by
          rw [hdec]
          exact List.mem_append_right _ (List.mem_cons_self _ _)
        obtain ⟨r, hr⟩ : ∃ r, restAcc.foldl (fun x q => if x.2 < q.2 then q else x) p = r :=
          ⟨_, rfl⟩
        rw [hr] at hdec hu hall hrmem
        have hrk : r.1 ∈ keysOf (p :: restAcc) := List.mem_map_of_mem _ hrmem
        have hrl := (hkeys r.1).mp hrk
        have hcw : cnt (p :: restAcc) r.1 = r.2 := by
          have : (r.1, r.2) ∈ p :: restAcc := hrmem
          exact cnt_of_mem_nodup _ _ _ hnodup this
        have hcountw : l.count r.1 = r.2 := by
          rw [← hcnt r.1 hrl.1, hcw]
        refine ⟨r.1, hrl.2, hrl.1, ?_, ?_, ?_⟩
        · intro s hsmem hsne
          have hks : s ∈ keysOf (p :: restAcc) := (hkeys s).mpr ⟨hsne, hsmem⟩
          obtain ⟨q, hmemk, hfst⟩ := List.mem_map.mp hks
          have hq : q = (s, q.2) := by
            obtain ⟨a, b⟩ := q
            have hfst2 : a = s := hfst
            subst hfst2
            rfl
          have hcnts : cnt (p :: restAcc) s = q.2 := by
            rw [hq] at hmemk
            exact cnt_of_mem_nodup _ _ _ hnodup hmemk
          have e1 : l.count s = q.2 := by rw [← hcnt s hsne, hcnts]
          rw [e1, hcountw]
          exact hall q hmemk
        · intro s hsmem hsne heqc
          by_cases hsw : s = r.1
          · rw [hsw]
          · have hks : s ∈ keysOf (p :: restAcc) := (hkeys s).mpr ⟨hsne, hsmem⟩
            obtain ⟨q, hmemk, hfst⟩ := List.mem_map.mp hks
            have hq : q = (s, q.2) := by
              obtain ⟨a, b⟩ := q
              have hfst2 : a = s := hfst
              subst hfst2
              rfl
            have hcnts : cnt (p :: restAcc) s = q.2 := by
              rw [hq] at hmemk
              exact cnt_of_mem_nodup _ _ _ hnodup hmemk
            have e1 : l.count s = q.2 := by rw [← hcnt s hsne, hcnts]
            have hq2 : q.2 = r.2 := by
              rw [← e1, heqc, hcountw]
            have hmem2 : q ∈ u ++ r :: t := hdec ▸ hmemk
            rcases List.mem_append.mp hmem2 with hin_u | hin_rt
            · have := hu q hin_u
              rw [hq2] at this
              exact absurd this (lt_irrefl _)
            · rcases List.mem_cons.mp hin_rt with heqr | hin_t
              · exact absurd (heqr ▸ hfst).symm hsw
              · have hkeyseq : keysOf (p :: restAcc) =
                    keysOf u ++ r.1 :: keysOf t := by
                  rw [hdec]
                  simp [keysOf]
                have hsub : (r.1 :: keysOf t).Sublist (keysOf (p :: restAcc)) := by
                  rw [hkeyseq]
                  exact List.sublist_append_right _ _
                have hpair2 := List.Pairwise.sublist hsub hpair
                have hcross := (List.pairwise_cons.mp hpair2).1
                have hst : s ∈ keysOf t := by
                  rw [← hfst]
                  exact List.mem_map_of_mem _ hin_t
                exact le_of_lt (hcross s hst)
        · have hlne : ¬ l = [] := by
            intro h
            rw [h] at hs0mem
            exact (List.not_mem_nil s0) hs0mem
          unfold detect_key
          rw [if_neg hlne, hacc]
          show (match mostCommonOf (p :: restAcc) with
                | none => unknownS
                | some q => keyLabel q.1) = keyLabel r.1
          simp [mostCommonOf, hr]
  · intro s hcond
    simp [keyLabel, hcond]
  · intro s hcond hm
    rcases Bool.or_eq_false_iff.mp hcond with ⟨hmaj, hseven⟩
    simp [keyLabel, hmaj, hseven, hm]
  · intro s hcond hm
    rcases Bool.or_eq_false_iff.mp hcond with ⟨hmaj, hseven⟩
    simp [keyLabel, hmaj, hseven, hm]

/-- C7 witness: the characterization applied to the concrete event list
`["G7", "Cmaj7", "G7"]`, whose most common non-empty symbol is "G7". -/
theorem detect_key_spec_witness :
    (∃ s ∈ ["G7", "Cmaj7", "G7"], s ≠ emptyS) ∧
    ∃ w ∈ ["G7", "Cmaj7", "G7"], w ≠ emptyS ∧
      (∀ s ∈ ["G7", "Cmaj7", "G7"], s ≠ emptyS →
        (["G7", "Cmaj7", "G7"] : List String).count s ≤
          (["G7", "Cmaj7", "G7"] : List String).count w) ∧
      (∀ s ∈ ["G7", "Cmaj7", "G7"], s ≠ emptyS →
        (["G7", "Cmaj7", "G7"] : List String).count s =
          (["G7", "Cmaj7", "G7"] : List String).count w →
        (["G7", "Cmaj7", "G7"] : List String).indexOf w ≤
          (["G7", "Cmaj7", "G7"] : List String).indexOf s) ∧
      detect_key ["G7", "Cmaj7", "G7"] = keyLabel w := by
  have hex : ∃ s ∈ ["G7", "Cmaj7", "G7"], s ≠ emptyS := by
    refine ⟨"G7", List.mem_cons_self _ _, ?_⟩
    exact of_decide_eq_true (by with_unfolding_all rfl)
  exact ⟨hex, detect_key_spec.2.1 ["G7", "Cmaj7", "G7"] hex⟩

end Chordrect
